import Mathlib

/-!
Verification of the `pass-fun` password-experimentation program
(`src/main.rs`) against its natural-language specification.

The program is shallowly embedded: bytes are `Nat` (values < 256 in the
source, a bound that never matters for the facts proved here), byte
buffers are `List Nat`, the MD5 digest function from the external `md5`
crate is an uninterpreted parameter `h : List Nat → List Nat`, and the
`HashMap` snapshot of credential records is an association list
`List (String × List Nat)`.  All `u64` arithmetic performed by the
source on the values considered here stays far below `2 ^ 64`, so plain
`Nat` arithmetic coincides with the source's wrapping semantics.
-/

/-- `HASH_LENGTH` (src/main.rs:18): MD5 digests are 16 bytes. -/
def HASH_LENGTH : Nat := 16

/-- `Charset::range` (src/main.rs:90-92) returns `0..n.pow(output_len)`;
this definition is the exclusive end of that range, i.e. the size of the
candidate space for the given output length. -/
def Charset.range (cs : List Nat) (output_len : Nat) : Nat :=
  cs.length ^ output_len

/-- `Charset::get_into` (src/main.rs:94-103): fills a buffer of length
`len` from index `i` by repeated mixed-radix digit extraction.  Each
slot receives `self.0[remain % n]` and `remain` becomes
`(remain - remain % n) / n`, exactly as in the source.  The source
writes into a caller-supplied `&mut [u8]`; here the filled buffer is
returned. -/
def Charset.get_into (cs : List Nat) : Nat → Nat → List Nat
  | _, 0 => []
  | remain, len + 1 =>
    let n := cs.length
    let modulo := remain % n
    cs.getD modulo 0 :: Charset.get_into cs ((remain - modulo) / n) len

theorem sub_mod_div (r n : Nat) : (r - r % n) / n = r / n := by
  have h := Nat.mod_add_div r n
  have hsub : r - r % n = n * (r / n) := by omega
  rw [hsub]
  rcases Nat.eq_zero_or_pos n with hn | hn
  · simp [hn]
  · exact Nat.mul_div_cancel_left _ hn

theorem get_into_succ (cs : List Nat) (r len : Nat) :
    Charset.get_into cs r (len + 1) =
      cs.getD (r % cs.length) 0 :: Charset.get_into cs (r / cs.length) len := by
  rw [Charset.get_into, sub_mod_div]

theorem get_into_length (cs : List Nat) (i len : Nat) :
    (Charset.get_into cs i len).length = len := by
  induction len generalizing i with
  | zero => rfl
  | succ L ih => rw [get_into_succ]; simp [ih]

theorem mem_of_mem_get_into (cs : List Nat) (hcs : cs ≠ []) (i len : Nat) :
    ∀ b ∈ Charset.get_into cs i len, b ∈ cs := by
  induction len generalizing i with
  | zero => intro b hb; simp [Charset.get_into] at hb
  | succ L ih =>
    intro b hb
    rw [get_into_succ] at hb
    have hn : 0 < cs.length := List.length_pos.mpr hcs
    rcases List.mem_cons.mp hb with hhead | htail
    · have hlt : i % cs.length < cs.length := Nat.mod_lt _ hn
      rw [hhead]
      have : cs.getD (i % cs.length) 0 = cs[i % cs.length] := by
        simp [List.getD_eq_getElem?_getD, List.getElem?_eq_getElem hlt]
      rw [this]
      exact List.getElem_mem hlt
    · exact ih _ b htail

/-- Inverse mixed-radix composition, as stated by the specification's
round-trip property: the index of a candidate is the sum over byte
positions of digit-value times `n ^ position`, a byte's digit value
being its position in the alphabet (`List.indexOf`).  The source has no
such inverse function; this is the spec-side re-derivation the
round-trip claims quantify over, written in Horner form (the lemma
`encodeIndex_eq_sum` below identifies it with the literal sum). -/
def encodeIndex (cs : List Nat) : List Nat → Nat
  | [] => 0
  | b :: rest => cs.indexOf b + cs.length * encodeIndex cs rest

theorem encodeIndex_eq_sum (cs : List Nat) (c : List Nat) :
    encodeIndex cs c =
      ((List.range c.length).map
        (fun k => cs.indexOf (c.getD k 0) * cs.length ^ k)).sum := by
  induction c with
  | nil => rfl
  | cons b rest ih =>
    rw [encodeIndex]
    simp only [List.length_cons, List.range_succ_eq_map, List.map_cons, List.sum_cons,
      List.map_map]
    have hhead : cs.indexOf ((b :: rest).getD 0 0) * cs.length ^ 0 = cs.indexOf b := by
      simp
    rw [hhead]
    congr 1
    have hfun : ((fun k => cs.indexOf ((b :: rest).getD k 0) * cs.length ^ k) ∘ Nat.succ)
        = fun k => cs.length * (cs.indexOf (rest.getD k 0) * cs.length ^ k) := by
      funext k
      simp [Function.comp, pow_succ]
      ring
    rw [hfun, List.sum_map_mul_left, ih]

theorem encode_get_into (cs : List Nat) (hnd : cs.Nodup) (L i : Nat)
    (hi : i < Charset.range cs L) :
    encodeIndex cs (Charset.get_into cs i L) = i := by
  induction L generalizing i with
  | zero =>
    have : i = 0 := by simpa [Charset.range] using hi
    simp [this, Charset.get_into, encodeIndex]
  | succ L ih =>
    have hn : 0 < cs.length := by
      by_contra hn
      have : cs.length = 0 := by omega
      simp [Charset.range, this] at hi
    rw [get_into_succ, encodeIndex]
    have hlt : i % cs.length < cs.length := Nat.mod_lt _ hn
    have hgetD : cs.getD (i % cs.length) 0 = cs[i % cs.length] := by
      simp [List.getD_eq_getElem?_getD, List.getElem?_eq_getElem hlt]
    rw [hgetD, List.indexOf_getElem hnd _ hlt]
    have hdiv : i / cs.length < Charset.range cs L := by
      rw [Charset.range] at hi ⊢
      rw [Nat.div_lt_iff_lt_mul hn]
      calc i < cs.length ^ (L + 1) := hi
        _ = cs.length ^ L * cs.length := by rw [pow_succ]
    rw [ih _ hdiv]
    exact Nat.mod_add_div i cs.length

theorem get_into_encode (cs : List Nat) (c : List Nat) (hmem : ∀ b ∈ c, b ∈ cs) :
    Charset.get_into cs (encodeIndex cs c) c.length = c := by
  induction c with
  | nil => rfl
  | cons b rest ih =>
    have hb : b ∈ cs := hmem b (List.mem_cons_self b rest)
    have hn : 0 < cs.length := List.length_pos.mpr (List.ne_nil_of_mem hb)
    have hidx : cs.indexOf b < cs.length := List.indexOf_lt_length.mpr hb
    rw [List.length_cons, get_into_succ, encodeIndex]
    have hmod : (cs.indexOf b + cs.length * encodeIndex cs rest) % cs.length
        = cs.indexOf b := by
      rw [Nat.add_mul_mod_self_left]
      exact Nat.mod_eq_of_lt hidx
    have hdiv : (cs.indexOf b + cs.length * encodeIndex cs rest) / cs.length
        = encodeIndex cs rest := by
      rw [Nat.add_mul_div_left _ _ hn, Nat.div_eq_of_lt hidx, Nat.zero_add]
    rw [hmod, hdiv]
    have hgetD : cs.getD (cs.indexOf b) 0 = cs[cs.indexOf b] := by
      simp [List.getD_eq_getElem?_getD, List.getElem?_eq_getElem hidx]
    rw [hgetD, List.getElem_indexOf hidx, ih (fun x hx => hmem x (List.mem_cons_of_mem b hx))]

theorem encode_lt (cs : List Nat) (c : List Nat) (hmem : ∀ b ∈ c, b ∈ cs) :
    encodeIndex cs c < Charset.range cs c.length := by
  induction c with
  | nil => simp [encodeIndex, Charset.range]
  | cons b rest ih =>
    have hb : b ∈ cs := hmem b (List.mem_cons_self b rest)
    have hn : 0 < cs.length := List.length_pos.mpr (List.ne_nil_of_mem hb)
    have hidx : cs.indexOf b < cs.length := List.indexOf_lt_length.mpr hb
    have hrest : encodeIndex cs rest < Charset.range cs rest.length :=
      ih (fun x hx => hmem x (List.mem_cons_of_mem b hx))
    rw [encodeIndex, List.length_cons, Charset.range, pow_succ]
    rw [Charset.range] at hrest
    calc cs.indexOf b + cs.length * encodeIndex cs rest
        < cs.length + cs.length * encodeIndex cs rest := by omega
      _ = cs.length * (encodeIndex cs rest + 1) := by ring
      _ ≤ cs.length * cs.length ^ rest.length := by
          exact Nat.mul_le_mul_left _ (by omega)
      _ = cs.length ^ rest.length * cs.length := by ring

/-- Credential store (src/main.rs:21-24): `records` maps usernames to
stored digests.  The source's `HashMap` snapshot is modelled as an
association list. -/
structure Database where
  records : List (String × List Nat)
  deriving DecidableEq

/-- Reasons `File::open` can fail; the source's `Err(_)` arm
(src/main.rs:33) discards the reason, so only the constructors matter. -/
inductive OpenErr
  | notFound
  | permissionDenied
  | other
  deriving DecidableEq

/-- `Database::load_or_create` (src/main.rs:29-35).  `open_result` is
the outcome of `File::open(Self::PATH)`; `deser` is the external
bincode-over-snappy deserializer applied to the opened file's bytes.
The source matches `Ok(f)` to deserialization (whose error propagates
via `?`) and `Err(_)` — any open failure — to `Default::default()`,
the empty store. -/
def Database.load_or_create (deser : List Nat → Except String Database)
    (open_result : Except OpenErr (List Nat)) : Except String Database :=
  match open_result with
  | .ok f => deser f
  | .error _ => .ok ⟨[]⟩

/-- `Database::with` (src/main.rs:47-55): load (or create) the store,
run the closure on it by mutable reference, then save it and return the
closure's result.  The first component of the pair is the store state
handed to `Database::save` — `none` when loading failed, in which case
`?` short-circuits before the closure runs and nothing is saved.  The
closure is modelled as returning the mutated store together with its
result; `save`'s own I/O is taken to succeed (its error would replace
the returned value but not the fact that the write was attempted). -/
def Database.with' {T : Type} (deser : List Nat → Except String Database)
    (open_result : Except OpenErr (List Nat))
    (f : Database → Database × Except String T) :
    Option Database × Except String T :=
  match Database.load_or_create deser open_result with
  | .error e => (none, .error e)
  | .ok db =>
    let p := f db
    (some p.1, p.2)

/-- Rendering of a candidate buffer for the match report
(src/main.rs:196 and src/main.rs:335):
`std::str::from_utf8(buf).unwrap_or("<not utf-8>")`.  The UTF-8 decoder
of the standard library is the uninterpreted parameter `utf8`. -/
def render_password (utf8 : List Nat → Option String) (buf : List Nat) : String :=
  (utf8 buf).getD "<not utf-8>"

/-- Per-index body of the brute-force parallel loop
(src/main.rs:186-200): decode the candidate, hash it, and report a
line for every credential record whose stored digest equals the hash. -/
def bruteforce_reports (h : List Nat → List Nat) (utf8 : List Nat → Option String)
    (cs : List Nat) (len : Nat) (records : List (String × List Nat)) (i : Nat) :
    List (String × String) :=
  let buf := Charset.get_into cs i len
  let hash := h buf
  records.filterMap fun r =>
    if hash = r.2 then some (r.1, render_password utf8 buf) else none

/-- Per-index body of the table-scanning parallel loop
(src/main.rs:325-340): compare the stored digest at slot `i` against
every credential record; on a match, decode the candidate (only then)
and report a line. -/
def use_htable_reports (utf8 : List Nat → Option String) (cs : List Nat) (len : Nat)
    (slots : Nat → List Nat) (records : List (String × List Nat)) (i : Nat) :
    List (String × String) :=
  records.filterMap fun r =>
    if r.2 = slots i then some (r.1, render_password utf8 (Charset.get_into cs i len))
    else none

/-- Content of an untouched table slot: `File::set_len`
(src/main.rs:244) pre-sizes `table.db`, extending it with zero bytes,
so a slot that is never written holds 16 zero bytes. -/
def zero_digest : List Nat := List.replicate HASH_LENGTH 0

/-- One chunk of the builder's inner parallel loop
(src/main.rs:286-295): for each position `k` in the chunk, decode the
candidate at index `first + k` and store its digest into slot
`first + k` of the table.  The writes hit pairwise-distinct slots, so
the sequential order used here has the same effect as the source's
parallel fan-out. -/
def write_chunk (h : List Nat → List Nat) (cs : List Nat) (item_len first : Nat) :
    Nat → (Nat → List Nat) → (Nat → List Nat)
  | 0, tbl => tbl
  | k + 1, tbl =>
    write_chunk h cs item_len first k
      (Function.update tbl (first + k) (h (Charset.get_into cs (first + k) item_len)))

/-- The builder's outer chunk loop (src/main.rs:259-296): chunks
`0, 1, …, num_chunks - 1` are processed in order, chunk `c` covering
slots `[c * hashes_per_chunk, (c+1) * hashes_per_chunk)` — its
`first_item_index` is `c * hashes_per_chunk` (src/main.rs:283). -/
def build_chunks (h : List Nat → List Nat) (cs : List Nat)
    (item_len hashes_per_chunk : Nat) :
    Nat → (Nat → List Nat) → (Nat → List Nat)
  | 0, tbl => tbl
  | c + 1, tbl =>
    write_chunk h cs item_len (c * hashes_per_chunk) hashes_per_chunk
      (build_chunks h cs item_len hashes_per_chunk c tbl)

/-- `gen_htable` (src/main.rs:217-300), digest region only: the table
is pre-sized to `total_hashes` zero slots, `hashes_per_chunk` is
`max_bytes_per_chunk / HASH_LENGTH`, `num_chunks` is
`total_hashes / hashes_per_chunk` (truncating division,
src/main.rs:256), and exactly those `num_chunks` chunks are written.
Slot `i` holds the 16 bytes at file offset
`hashes_offset_in_file + i * HASH_LENGTH`. -/
def gen_htable_slots (h : List Nat → List Nat) (cs : List Nat)
    (item_len max_bytes_per_chunk : Nat) : Nat → List Nat :=
  let total_hashes := Charset.range cs item_len
  let hashes_per_chunk := max_bytes_per_chunk / HASH_LENGTH
  let num_chunks := total_hashes / hashes_per_chunk
  build_chunks h cs item_len hashes_per_chunk num_chunks (fun _ => zero_digest)

/-- The builder's hard-coded candidate length (src/main.rs:218). -/
def gen_item_len : Nat := 6

/-- The builder's and brute-forcer's hard-coded charset
(src/main.rs:174 and src/main.rs:219), as bytes. -/
def gen_charset : List Nat :=
  "abcdefghijklmnopqrstuvwxyz0123456789".data.map Char.toNat

/-- The builder's hard-coded chunk byte budget (src/main.rs:249-253):
two binary gigabytes. -/
def gen_max_bytes_per_chunk : Nat := 2 * (1024 * 1024 * 1024)

theorem write_chunk_slots (h : List Nat → List Nat) (cs : List Nat)
    (item_len first : Nat) (count : Nat) (tbl : Nat → List Nat) (i : Nat) :
    write_chunk h cs item_len first count tbl i =
      if first ≤ i ∧ i < first + count then h (Charset.get_into cs i item_len)
      else tbl i := by
  induction count generalizing tbl with
  | zero =>
    rw [write_chunk]
    have : ¬(first ≤ i ∧ i < first + 0) := by omega
    rw [if_neg this]
  | succ k ih =>
    rw [write_chunk, ih]
    by_cases hin : first ≤ i ∧ i < first + k
    · rw [if_pos hin, if_pos (by omega)]
    · rw [if_neg hin, Function.update_apply]
      by_cases heq : i = first + k
      · rw [if_pos heq, if_pos (by omega), heq]
      · rw [if_neg heq, if_neg (by omega)]

theorem build_chunks_slots (h : List Nat → List Nat) (cs : List Nat)
    (item_len hashes_per_chunk : Nat) (num_chunks : Nat) (tbl : Nat → List Nat) (i : Nat) :
    build_chunks h cs item_len hashes_per_chunk num_chunks tbl i =
      if i < num_chunks * hashes_per_chunk then h (Charset.get_into cs i item_len)
      else tbl i := by
  induction num_chunks generalizing tbl with
  | zero =>
    rw [build_chunks]
    have : ¬ i < 0 * hashes_per_chunk := by omega
    rw [if_neg this]
  | succ c ih =>
    rw [build_chunks, write_chunk_slots, ih]
    by_cases hin : c * hashes_per_chunk ≤ i ∧ i < c * hashes_per_chunk + hashes_per_chunk
    · rw [if_pos hin, if_pos (by rw [Nat.succ_mul]; omega)]
    · rw [if_neg hin]
      by_cases hlt : i < c * hashes_per_chunk
      · rw [if_pos hlt, if_pos (by rw [Nat.succ_mul]; omega)]
      · rw [if_neg hlt, if_neg (by rw [Nat.succ_mul]; omega)]

theorem gen_htable_slots_eq (h : List Nat → List Nat) (cs : List Nat)
    (item_len max_bytes_per_chunk : Nat) (i : Nat) :
    gen_htable_slots h cs item_len max_bytes_per_chunk i =
      if i < Charset.range cs item_len / (max_bytes_per_chunk / HASH_LENGTH)
            * (max_bytes_per_chunk / HASH_LENGTH)
      then h (Charset.get_into cs i item_len)
      else zero_digest := by
  rw [gen_htable_slots]
  exact build_chunks_slots h cs item_len _ _ _ i

/-- `TableHeader` (src/main.rs:205-209): candidate length and the
charset bytes the table was built with. -/
structure TableHeader where
  len : Nat
  charset : List Nat
  deriving DecidableEq

/-- An on-disk `table.db` whose header region decodes successfully:
the decoded header together with the raw bytes that follow it. -/
structure TableFile where
  header : TableHeader
  body : List Nat
  deriving DecidableEq

/-- Abort reasons `use_htable` can actually report before scanning. -/
inductive ScanAbort
  | openFailed
  | mmapFailed
  deriving DecidableEq

/-- Setup phase of `use_htable` (src/main.rs:302-320): open `table.db`
(`none` models `File::open` failing), decode the header (a `TableFile`
carries an already-decoded header; a file too corrupt for bincode would
abort earlier), memory-map everything after the header (`memmap`
rejects a zero-length mapping, the only way this step fails here), and
reinterpret the mapping as `num_hashes = charset.len() ^ header.len`
16-byte records via `from_raw_parts` (src/main.rs:315-320).  Returned
on success: the header, `num_hashes`, and the number of bytes actually
present after the header.  The source compares these last two nowhere. -/
def use_htable_setup (file : Option TableFile) :
    Except ScanAbort (TableHeader × Nat × Nat) :=
  match file with
  | none => .error .openFailed
  | some f =>
    if f.body.length = 0 then .error .mmapFailed
    else .ok (f.header, Charset.range f.header.charset f.header.len, f.body.length)

/-- Matches reported by the brute-force searcher at one candidate
length (src/main.rs:181-201), as (identity, candidate-bytes) pairs:
every index of the length's candidate space whose hash equals a
record's stored digest. -/
def bruteforce_match_set (h : List Nat → List Nat) (cs : List Nat) (len : Nat)
    (records : List (String × List Nat)) : Set (String × List Nat) :=
  {p | ∃ i < Charset.range cs len, ∃ r ∈ records,
    h (Charset.get_into cs i len) = r.2 ∧ p = (r.1, Charset.get_into cs i len)}

/-- Matches reported by the table scanner (src/main.rs:325-340), as
(identity, candidate-bytes) pairs: every index below the
header-derived entry count whose stored slot equals a record's digest;
the candidate is decoded from the index on the match path. -/
def scanner_match_set (cs : List Nat) (len : Nat) (slots : Nat → List Nat)
    (records : List (String × List Nat)) : Set (String × List Nat) :=
  {p | ∃ i < Charset.range cs len, ∃ r ∈ records,
    r.2 = slots i ∧ p = (r.1, Charset.get_into cs i len)}

/-- A 16-byte digest distinct from `zero_digest`, used as the output of
a concrete stand-in hash function. -/
def ones_digest : List Nat := List.replicate HASH_LENGTH 1

/-- Concrete stand-in for the external MD5 function: every candidate
hashes to `ones_digest`. -/
def h_ones : List Nat → List Nat := fun _ => ones_digest

/-- A one-record credential snapshot whose stored digest is
`ones_digest`. -/
def demo_records : List (String × List Nat) := [("u", ones_digest)]

/-- C4 counterexample: the claim quantifies over every alphabet, but
with the duplicate alphabet "aa" (two bytes, both 97) index 1 is in
range, decodes to [97], and the inverse mixed-radix composition — digit
value = the byte's position in the alphabet — re-derives 0, not 1. -/
theorem round_trip_fails_duplicate_alphabet :
    (1 : Nat) < Charset.range [97, 97] 1 ∧
    ((List.range 1).map
      (fun k => List.indexOf ((Charset.get_into [97, 97] 1 1).getD k 0) [97, 97]
        * ([97, 97] : List Nat).length ^ k)).sum = 0 ∧
    (0 : Nat) ≠ 1 := by decide

/-- C4 (amended to alphabets of pairwise-distinct bytes, the spec's
deduplication convention): for `0 ≤ i < n ^ L`, decoding `i` with
`Charset::get_into` and re-deriving the index as the sum over positions
of digit-value times `n ^ position` returns `i`. -/
theorem round_trip_nodup (cs : List Nat) (hnd : cs.Nodup) (L i : Nat)
    (hi : i < Charset.range cs L) :
    ((List.range L).map
      (fun k => List.indexOf ((Charset.get_into cs i L).getD k 0) cs
        * cs.length ^ k)).sum = i := by
  have hlen : (Charset.get_into cs i L).length = L := get_into_length cs i L
  have hsum := encodeIndex_eq_sum cs (Charset.get_into cs i L)
  rw [hlen] at hsum
  rw [← hsum]
  exact encode_get_into cs hnd L i hi

/-- Witness for C4's amended theorem at alphabet "ab", length 2,
index 3. -/
theorem round_trip_nodup_witness :
    ([97, 98] : List Nat).Nodup ∧ (3 : Nat) < Charset.range [97, 98] 2 ∧
    ((List.range 2).map
      (fun k => List.indexOf ((Charset.get_into [97, 98] 3 2).getD k 0) [97, 98]
        * ([97, 98] : List Nat).length ^ k)).sum = 3 :=
  ⟨by decide, by decide, round_trip_nodup [97, 98] (by decide) 2 3 (by decide)⟩

/-- C5: for alphabet "ab" (bytes 97 and 98) and length 2 the enumerator
maps index 0 to "aa", 1 to "ba", 2 to "ab" and 3 to "bb"; in general
the first byte of the buffer is the alphabet byte at the index's
least-significant base-n digit and the remaining bytes are filled from
the integer quotient by n. -/
theorem get_into_ab_len2_enumeration :
    Charset.get_into [97, 98] 0 2 = [97, 97] ∧
    Charset.get_into [97, 98] 1 2 = [98, 97] ∧
    Charset.get_into [97, 98] 2 2 = [97, 98] ∧
    Charset.get_into [97, 98] 3 2 = [98, 98] ∧
    ∀ (cs : List Nat) (i len : Nat),
      Charset.get_into cs i (len + 1) =
        cs.getD (i % cs.length) 0 :: Charset.get_into cs (i / cs.length) len :=
  ⟨by decide, by decide, by decide, by decide, get_into_succ⟩

/-- C6 counterexample: the claim quantifies over every alphabet, but
with the duplicate alphabet "aa" the distinct in-range indices 0 and 1
decode to the same candidate, so the candidates are not pairwise
distinct. -/
theorem distinctness_fails_duplicate_alphabet :
    (0 : Nat) < Charset.range [97, 97] 1 ∧ (1 : Nat) < Charset.range [97, 97] 1 ∧
    Charset.get_into [97, 97] 0 1 = Charset.get_into [97, 97] 1 1 ∧
    (0 : Nat) ≠ 1 := by decide

/-- C6 (amended to alphabets of pairwise-distinct bytes, the spec's
deduplication convention): the candidates produced for the indices of
`[0, n ^ L)` are pairwise distinct, and they exactly cover the set of
length-`L` byte strings drawn from the alphabet. -/
theorem enumerator_injective_and_covers (cs : List Nat) (hnd : cs.Nodup) (L : Nat) :
    (∀ i < Charset.range cs L, ∀ j < Charset.range cs L,
      Charset.get_into cs i L = Charset.get_into cs j L → i = j) ∧
    (∀ c : List Nat, (c.length = L ∧ ∀ b ∈ c, b ∈ cs) ↔
      ∃ i < Charset.range cs L, Charset.get_into cs i L = c) := by
  constructor
  · intro i hi j hj heq
    have h1 := encode_get_into cs hnd L i hi
    have h2 := encode_get_into cs hnd L j hj
    rw [← h1, ← h2, heq]
  · intro c
    constructor
    · rintro ⟨hlen, hmem⟩
      refine ⟨encodeIndex cs c, ?_, ?_⟩
      · rw [← hlen]; exact encode_lt cs c hmem
      · rw [← hlen]; exact get_into_encode cs c hmem
    · rintro ⟨i, hi, hc⟩
      constructor
      · rw [← hc]; exact get_into_length cs i L
      · intro b hb
        rw [← hc] at hb
        by_cases hcs : cs = []
        · subst hcs
          rcases L with _ | L
          · simp [Charset.get_into] at hb
          · simp [Charset.range, Nat.zero_pow] at hi
        · exact mem_of_mem_get_into cs hcs i L b hb

/-- Witness for C6's amended theorem at alphabet "ab", length 1. -/
theorem enumerator_injective_and_covers_witness :
    ([97, 98] : List Nat).Nodup ∧
    ((∀ i < Charset.range [97, 98] 1, ∀ j < Charset.range [97, 98] 1,
      Charset.get_into [97, 98] i 1 = Charset.get_into [97, 98] j 1 → i = j) ∧
    (∀ c : List Nat, (c.length = 1 ∧ ∀ b ∈ c, b ∈ [97, 98]) ↔
      ∃ i < Charset.range [97, 98] 1, Charset.get_into [97, 98] i 1 = c)) :=
  ⟨by decide, enumerator_injective_and_covers [97, 98] (by decide) 1⟩

/-- C10: for a non-empty alphabet `Charset::get_into` is total for
every index — the embedding is a total function, and with a non-empty
charset none of the source's `u64` operations can fault — and its
output depends only on the index modulo `n ^ L`: decoding `i` and
decoding `i % n ^ L` fill the buffer identically. -/
theorem get_into_periodic (cs : List Nat) (hcs : cs ≠ []) (L i : Nat) :
    Charset.get_into cs i L = Charset.get_into cs (i % Charset.range cs L) L := by
  induction L generalizing i with
  | zero => rfl
  | succ L ih =>
    rw [get_into_succ, get_into_succ]
    have hdvd : cs.length ∣ Charset.range cs (L + 1) :=
      dvd_pow_self cs.length (Nat.succ_ne_zero L)
    have hmod : i % Charset.range cs (L + 1) % cs.length = i % cs.length :=
      Nat.mod_mod_of_dvd i hdvd
    have hdiv : i % Charset.range cs (L + 1) / cs.length
        = i / cs.length % Charset.range cs L := by
      rw [Charset.range, pow_succ, mul_comm]
      exact Nat.mod_mul_right_div_self i cs.length _
    rw [hmod, hdiv, ← ih (i / cs.length)]

/-- Witness for C10 at alphabet "ab", length 2, index 7 (7 mod 4 = 3). -/
theorem get_into_periodic_witness :
    ([97, 98] : List Nat) ≠ [] ∧
    Charset.get_into [97, 98] 7 2 =
      Charset.get_into [97, 98] (7 % Charset.range [97, 98] 2) 2 :=
  ⟨by decide, get_into_periodic [97, 98] (by decide) 2 7⟩

/-- C1: refuted on the code — `gen_htable` computes `num_chunks` with
truncating division (src/main.rs:256) and its loop never processes a
final short chunk, so when the chunk size does not divide `n ^ L` the
trailing indices are silently dropped.  At the builder's own
configuration (36-byte charset, length 6, 2 GiB chunk budget), the
chunk size does not divide `36 ^ 6`, and index 2147483648 lies inside
the candidate space yet its slot is never written: whatever the hash
function, it still holds the zero bytes of the pre-sized file. -/
theorem gen_htable_drops_final_remainder (h : List Nat → List Nat) :
    2147483648 < Charset.range gen_charset gen_item_len ∧
    Charset.range gen_charset gen_item_len % (gen_max_bytes_per_chunk / HASH_LENGTH) ≠ 0 ∧
    gen_htable_slots h gen_charset gen_item_len gen_max_bytes_per_chunk 2147483648 =
      zero_digest := by
  refine ⟨by decide, by decide, ?_⟩
  have hcond : ¬ (2147483648 < Charset.range gen_charset gen_item_len /
      (gen_max_bytes_per_chunk / HASH_LENGTH) * (gen_max_bytes_per_chunk / HASH_LENGTH)) := by
    decide
  rw [gen_htable_slots_eq, if_neg hcond]

/-- Witness for C1's theorem at the concrete stand-in hash `h_ones`. -/
theorem gen_htable_drops_final_remainder_witness :
    2147483648 < Charset.range gen_charset gen_item_len ∧
    Charset.range gen_charset gen_item_len % (gen_max_bytes_per_chunk / HASH_LENGTH) ≠ 0 ∧
    gen_htable_slots h_ones gen_charset gen_item_len gen_max_bytes_per_chunk 2147483648 =
      zero_digest :=
  gen_htable_drops_final_remainder h_ones

/-- A table file whose header declares charset "ab" and length 2 — so
4 entries, 64 digest bytes — while its digest region actually holds
only 16 bytes. -/
def truncated_file : TableFile :=
  ⟨⟨2, [97, 98]⟩, List.replicate 16 0⟩

/-- C2: refuted on the code — on a file whose header-declared entry
count disagrees with the length of the digest region, `use_htable`
reports nothing: its setup succeeds and the scan reinterprets
`4 * HASH_LENGTH = 64` bytes out of a 16-byte region, an out-of-bounds
access of the mapping (undefined behaviour in the source), never a
corrupt-table error. -/
theorem use_htable_accepts_size_mismatch :
    use_htable_setup (some truncated_file) = .ok (⟨2, [97, 98]⟩, 4, 16) ∧
    4 * HASH_LENGTH > truncated_file.body.length := by
  exact ⟨rfl, by decide⟩

/-- The candidate at the first index the builder's dropped remainder
would have covered (see C1). -/
def dropped_candidate : List Nat :=
  Charset.get_into gen_charset 2147483648 gen_item_len

/-- C3: refuted on the code — over a table freshly built by
`gen_htable` (hard-coded charset, length 6, 2 GiB chunks), with a
credential store holding one record whose digest is the hash of the
candidate at index 2147483648, the brute-force searcher restricted to
length 6 reports that match but the table scanner does not: the slot
was never written (C1's dropped remainder), so the two match sets
differ. -/
theorem htable_scan_misses_bruteforce_match :
    ("u", dropped_candidate) ∈
      bruteforce_match_set h_ones gen_charset gen_item_len demo_records ∧
    ("u", dropped_candidate) ∉
      scanner_match_set gen_charset gen_item_len
        (gen_htable_slots h_ones gen_charset gen_item_len gen_max_bytes_per_chunk)
        demo_records ∧
    scanner_match_set gen_charset gen_item_len
        (gen_htable_slots h_ones gen_charset gen_item_len gen_max_bytes_per_chunk)
        demo_records ≠
      bruteforce_match_set h_ones gen_charset gen_item_len demo_records := by
  have hrange : (2147483648 : Nat) < Charset.range gen_charset gen_item_len := by decide
  have hnodup : gen_charset.Nodup := by decide
  have hcov : Charset.range gen_charset gen_item_len / (gen_max_bytes_per_chunk / HASH_LENGTH)
      * (gen_max_bytes_per_chunk / HASH_LENGTH) = 2147483648 := by decide
  have hin : ("u", dropped_candidate) ∈
      bruteforce_match_set h_ones gen_charset gen_item_len demo_records :=
    ⟨2147483648, hrange, ("u", ones_digest), by simp [demo_records], rfl, rfl⟩
  have hnotin : ("u", dropped_candidate) ∉
      scanner_match_set gen_charset gen_item_len
        (gen_htable_slots h_ones gen_charset gen_item_len gen_max_bytes_per_chunk)
        demo_records := by
    rintro ⟨i, hi, r, hr, hslot, hpair⟩
    have hr' : r = ("u", ones_digest) := by simpa [demo_records] using hr
    subst hr'
    rw [gen_htable_slots_eq, hcov] at hslot
    by_cases hlt : i < 2147483648
    · rw [if_pos hlt] at hslot
      have hc : Charset.get_into gen_charset 2147483648 gen_item_len
          = Charset.get_into gen_charset i gen_item_len := congrArg Prod.snd hpair
      have h1 : encodeIndex gen_charset
          (Charset.get_into gen_charset 2147483648 gen_item_len) = 2147483648 :=
        encode_get_into gen_charset hnodup gen_item_len 2147483648 hrange
      have h2 : encodeIndex gen_charset
          (Charset.get_into gen_charset i gen_item_len) = i :=
        encode_get_into gen_charset hnodup gen_item_len i hi
      rw [hc, h2] at h1
      omega
    · rw [if_neg hlt] at hslot
      exact absurd hslot (by decide)
  refine ⟨hin, hnotin, ?_⟩
  intro heq
  rw [heq] at hnotin
  exact hnotin hin

/-- Stand-in deserializer that always fails; the deserializer is never
reached on the open-error path. -/
def failing_deser : List Nat → Except String Database :=
  fun _ => .error "corrupt"

/-- C7 counterexample: a permission-denied open — an open error other
than file-missing — is also swallowed into the empty store by the
`Err(_)` arm, instead of being propagated as a failure result. -/
theorem load_swallows_non_missing_open_error :
    OpenErr.permissionDenied ≠ OpenErr.notFound ∧
    Database.load_or_create failing_deser (.error .permissionDenied) = .ok ⟨[]⟩ :=
  ⟨by decide, rfl⟩

/-- C7 (amended: any failure to OPEN the store file — not only its
absence — yields the empty store; only errors from deserializing a
successfully opened file are propagated): behaviour of
`Database::load_or_create` on both paths, for every deserializer. -/
theorem load_or_create_error_semantics (deser : List Nat → Except String Database) :
    (∀ e : OpenErr, Database.load_or_create deser (.error e) = .ok ⟨[]⟩) ∧
    (∀ bytes : List Nat, Database.load_or_create deser (.ok bytes) = deser bytes) :=
  ⟨fun _ => rfl, fun _ => rfl⟩

/-- Witness for C7's amended theorem at the always-failing
deserializer. -/
theorem load_or_create_error_semantics_witness :
    (∀ e : OpenErr, Database.load_or_create failing_deser (.error e) = .ok ⟨[]⟩) ∧
    (∀ bytes : List Nat, Database.load_or_create failing_deser (.ok bytes) =
      failing_deser bytes) :=
  load_or_create_error_semantics failing_deser

/-- C8: a matched candidate whose bytes fail UTF-8 decoding is
displayed as the placeholder `"<not utf-8>"` and its match line is
still emitted, in both the brute-force loop and the table-scan loop;
the per-index report functions are total, so one candidate's
display-encoding failure never aborts the search or suppresses the
match. -/
theorem display_placeholder_preserves_match (h : List Nat → List Nat)
    (utf8 : List Nat → Option String) (cs : List Nat) (len : Nat)
    (slots : Nat → List Nat) (records : List (String × List Nat)) (i : Nat)
    (u : String) (d : List Nat) (hmem : (u, d) ∈ records)
    (henc : utf8 (Charset.get_into cs i len) = none) :
    (h (Charset.get_into cs i len) = d →
      (u, "<not utf-8>") ∈ bruteforce_reports h utf8 cs len records i) ∧
    (d = slots i →
      (u, "<not utf-8>") ∈ use_htable_reports utf8 cs len slots records i) := by
  constructor
  · intro hh
    simp only [bruteforce_reports, List.mem_filterMap]
    exact ⟨(u, d), hmem, by simp [hh, render_password, henc]⟩
  · intro hs
    simp only [use_htable_reports, List.mem_filterMap]
    exact ⟨(u, d), hmem, by simp [← hs, render_password, henc]⟩

/-- Witness for C8 at a one-record store, a candidate byte that is not
valid UTF-8, and a decoder that rejects it. -/
theorem display_placeholder_preserves_match_witness :
    (("u" : String), ([0] : List Nat)) ∈ [(("u" : String), ([0] : List Nat))] ∧
    (fun _ : List Nat => (none : Option String)) (Charset.get_into [200] 0 1) = none ∧
    ("u", "<not utf-8>") ∈
      bruteforce_reports (fun _ => [0]) (fun _ => none) [200] 1 [("u", [0])] 0 ∧
    ("u", "<not utf-8>") ∈
      use_htable_reports (fun _ => none) [200] 1 (fun _ => [0]) [("u", [0])] 0 := by
  have h := display_placeholder_preserves_match (fun _ => [0]) (fun _ => none)
    [200] 1 (fun _ => [0]) [("u", [0])] 0 "u" [0]
    (List.mem_singleton.mpr rfl) rfl
  exact ⟨List.mem_singleton.mpr rfl, rfl, h.1 rfl, h.2 rfl⟩

/-- C9: whenever loading succeeds, `Database::with` hands the closure's
final store state to `save` unconditionally — also for read-only
closures, which therefore rewrite the store file, and also when the
closure's result is an error, so mutations the closure made before
failing are persisted (no state-unchanged-on-error atomicity). -/
theorem with_saves_unconditionally {T : Type}
    (deser : List Nat → Except String Database)
    (open_result : Except OpenErr (List Nat)) (db0 : Database)
    (f : Database → Database × Except String T)
    (hload : Database.load_or_create deser open_result = .ok db0) :
    Database.with' deser open_result f = (some (f db0).1, (f db0).2) := by
  unfold Database.with'
  rw [hload]

/-- Witness for C9: loading from a missing file yields the empty store,
and a closure that inserts a record and then fails still gets its
mutated store handed to `save`, while its error is returned. -/
theorem with_saves_unconditionally_witness :
    Database.load_or_create failing_deser (.error .notFound) = .ok ⟨[]⟩ ∧
    @Database.with' Unit failing_deser (.error .notFound)
      (fun _ => (⟨[("u", [1])]⟩, .error "closure failed")) =
      (some (⟨[("u", [1])]⟩ : Database),
        (.error "closure failed" : Except String Unit)) :=
  ⟨rfl, with_saves_unconditionally failing_deser (.error .notFound) ⟨[]⟩
    (fun _ => (⟨[("u", [1])]⟩, .error "closure failed")) rfl⟩
